import Mathlib

/-!
# Verification of the `fcr` dataset model (`src/dataset/dataset_para.py`)

A shallow embedding of the `Dataset` / `SubDataset` classes and the
module-level helpers of `dataset_para.py`, together with proofs and
refutations of the frozen specification claims.

Conventions of the embedding:
* Python strings are Lean `String`s; substring containment (`c in s`)
  is `isSubstr`; `str.split("+")` is `splitPlus`.
* numpy/torch row vectors are `List ℚ`; `torch.eye(n)` is `eyeRows n`;
  elementwise tensor addition is `addVec`, scalar scaling `smulVec`.
* Python `float(...)` parsing is an uninterpreted parameter
  `pf : String → ℚ` wherever it occurs.
* numpy's `np.where(cond)[0].tolist()` is `npWhere`, `np.unique` is
  `npUnique`, and the RNG behind `np.random.choice` is an explicit
  stream of natural numbers (`List ℕ`), a fresh element per draw; a
  draw from `m` items reduces the stream element mod `m`.
* Fallible Python code (asserts, IndexError/KeyError) becomes
  `Option`/`Except`.
-/

/-- Python `p == s[:len(p)]`: list-of-chars prefix test. -/
def isPrefixL : List Char → List Char → Bool
  | [], _ => true
  | _ :: _, [] => false
  | a :: as, b :: bs => a == b && isPrefixL as bs

/-- Substring containment on lists of characters: some suffix of `s`
starts with `p`. -/
def isInfixL (p : List Char) : List Char → Bool
  | [] => isPrefixL p []
  | c :: rest => isPrefixL p (c :: rest) || isInfixL p rest

/-- Python's `p in s` for strings: contiguous-substring containment. -/
def isSubstr (p s : String) : Bool :=
  isInfixL p.data s.data

/-- Python `str.split(sep)` for a one-character separator: always
returns at least one (possibly empty) part, and empty parts between
adjacent separators are kept. -/
def splitOnChar (sep : Char) : List Char → List (List Char)
  | [] => [[]]
  | c :: cs =>
    match splitOnChar sep cs with
    | [] => [[]]
    | r :: rs => if c == sep then [] :: r :: rs else (c :: r) :: rs

/-- Python `s.split("+")`, the combination separator used throughout
`dataset_para.py`. -/
def splitPlus (s : String) : List String :=
  (splitOnChar '+' s.data).map (fun l => ⟨l⟩)

/-- Python `list(dict.fromkeys(l))`: deduplicate keeping the first
occurrence of each element, preserving first-seen order. -/
def dedupFirstAux [DecidableEq α] (seen : List α) : List α → List α
  | [] => []
  | a :: l => if a ∈ seen then dedupFirstAux seen l else a :: dedupFirstAux (a :: seen) l

/-- Deduplication preserving first-seen order (Python `dict.fromkeys`). -/
def dedupFirst [DecidableEq α] (l : List α) : List α :=
  dedupFirstAux [] l

/-- numpy `np.where(p(col))[0].tolist()`: the row positions of `l`
satisfying `p`, in increasing order. -/
def npWhere [Inhabited α] (p : α → Bool) (l : List α) : List Nat :=
  (List.range l.length).filter (fun i => p (l.getD i default))

/-- Insert a string into a (sorted) list, keeping order. -/
def insertSorted (a : String) : List String → List String
  | [] => [a]
  | b :: bs => if a < b then a :: b :: bs else b :: insertSorted a bs

/-- Insertion sort on strings (the sort inside `np.unique`). -/
def sortStr (l : List String) : List String :=
  l.foldr insertSorted []

/-- numpy `np.unique` on a string column: sorted distinct values. -/
def npUnique (l : List String) : List String :=
  dedupFirst (sortStr l)

/-- Python `list(set(a) & set(b))`: a duplicate-free list whose members
are exactly the common elements (CPython's set order is unspecified;
we fix first-seen order of `a`). -/
def setInter [DecidableEq α] (a b : List α) : List α :=
  dedupFirst (a.filter (fun x => x ∈ b))

/-- Row `i` of `torch.eye n`: the one-hot basis vector of length `n`
with a `1` at position `i`. -/
def onehot (i n : Nat) : List ℚ :=
  (List.range n).map (fun j => if j == i then 1 else 0)

/-- All rows of `torch.eye n` in order. -/
def eyeRows (n : Nat) : List (List ℚ) :=
  (List.range n).map (fun i => onehot i n)

/-- Elementwise tensor addition of two equal-shape row vectors. -/
def addVec (v w : List ℚ) : List ℚ :=
  List.zipWith (· + ·) v w

/-- Broadcast scalar multiplication `d * v` of torch. -/
def smulVec (d : ℚ) (v : List ℚ) : List ℚ :=
  v.map (fun x => d * x)

/-- Python `sum(vs)` over a list of equal-shape tensors: the int `0`
seed disappears into the first tensor, so an empty list sums to the
scalar `0` (shape-degenerate, modelled as `[]`). -/
def sumVecs : List (List ℚ) → List ℚ
  | [] => []
  | v :: vs => vs.foldl addVec v

/-- The `Dataset.get_unique_perts`: split every perturbation string on
`"+"`, flatten in dataset order, deduplicate keeping first occurrence. -/
def get_unique_perts (all_perts : List String) : List String :=
  dedupFirst (all_perts.flatMap splitPlus)

/-- The `self.perts_dict = dict(zip(pert_unique, pert_unique_onehot))`:
lookup of an agent's one-hot row; `none` is Python's `KeyError`. -/
def pertsDictLookup (pert_unique : List String) (p : String) : Option (List ℚ) :=
  (pert_unique.zip (eyeRows pert_unique.length)).lookup p

/-- The inner loop `for j, d in enumerate(dose_combos):
perturbation_ohe.append(float(d) * perturbation_combos[j])`.  Walks the
dose parts positionally through the one-hot list; `none` is the
`IndexError` raised when a dose part has no aligned one-hot (dose list
longer); surplus one-hots are silently ignored (dose list shorter). -/
def scaleLoop (pf : String → ℚ) : List String → List (List ℚ) → Option (List (List ℚ))
  | [], _ => some []
  | _ :: _, [] => none
  | d :: ds, v :: vs => (scaleLoop pf ds vs).map (fun rest => smulVec (pf d) v :: rest)

/-- One iteration of the encoding loop of `Dataset.__init__`
(lines 128-136): split the perturbation and dose strings on `"+"`,
look up each agent's one-hot, scale by the parsed dose part, and sum
elementwise.  `none` models the `KeyError`/`IndexError` paths. -/
def encodeSample (pert_unique : List String) (pf : String → ℚ)
    (pert dose : String) : Option (List ℚ) := do
  let perturbation_combos ← (splitPlus pert).mapM (pertsDictLookup pert_unique)
  let dose_combos := splitPlus dose
  let perturbation_ohe ← scaleLoop pf dose_combos perturbation_combos
  return sumVecs perturbation_ohe

/-! ## Field resolution (`Dataset.__init__`, lines 41-88) -/

/-- Outcome of resolving the dose field: either an existing physical
column name, or the synthesized `dummy_dose` column holding the
constant `1.0` for every one of the `n` rows. -/
inductive DoseResolution where
  | resolved (col : String)
  | synthesized (col : List ℚ)
  deriving DecidableEq, Repr

/-- Dose-field resolution (lines 52-60): if the logical name is
registered in `data.uns["fields"]`, substitute the mapped physical
column; if the caller passed `None`, synthesize `dummy_dose = 1.0`;
otherwise `assert dose_key in data.obs.columns` — `Except.error` is
the `AssertionError`.  (The Python code tests `dose_key in fields`
before the `None` test; since `fields` maps strings, `None` is never a
member, so matching on the option first is equivalent.) -/
def resolveDose (dose_key : Option String) (fields : List (String × String))
    (obs_columns : List String) (n : Nat) : Except String DoseResolution :=
  match dose_key with
  | some k =>
    match fields.lookup k with
    | some phys => .ok (.resolved phys)
    | none =>
      if obs_columns.contains k then .ok (.resolved k)
      else .error ("Dose " ++ k ++ " is missing in the provided adata")
  | none => .ok (.synthesized (List.replicate n (1 : ℚ)))

/-- Outcome of resolving the split field: an existing physical column,
or a synthesized assignment produced by the external stratified
splitter (out of scope here, passed in as `auto_split`). -/
inductive SplitResolution where
  | resolved (col : String)
  | synthesized (col : List String)
  deriving DecidableEq, Repr

/-- Split-field resolution (lines 73-88): registered name → mapped
column; `None` → synthesized train/test assignment from the external
`train_test_split` at the caller-supplied ratio; otherwise
`assert split_key in data.obs.columns`. -/
def resolveSplit (split_key : Option String) (fields : List (String × String))
    (obs_columns : List String) (auto_split : List String) :
    Except String SplitResolution :=
  match split_key with
  | some k =>
    match fields.lookup k with
    | some phys => .ok (.resolved phys)
    | none =>
      if obs_columns.contains k then .ok (.resolved k)
      else .error ("Split " ++ k ++ " is missing in the provided adata")
  | none => .ok (.synthesized auto_split)

/-! ## Raw input and Dataset construction -/

/-- The raw `AnnData`-like record set, after field resolution: the
physical columns `dataset_para.py` actually reads.  `genes` is
`data.X` (one row vector per sample), `controlCol` the control-flag
column, `splitCol` the split-label column, `covValues` one string
column per covariate key. -/
structure RawData where
  genes : List (List ℚ)
  pertNames : List String
  doseStrs : List String
  controlCol : List Int
  splitCol : List String
  covValues : List (List String)
  deriving Repr

/-- The `self.indices` (lines 90-97): the six named row-position lists. -/
def mkIndices (controlCol : List Int) (splitCol : List String) (n : Nat) :
    List (String × List Nat) :=
  [ ("all", List.range n),
    ("control", npWhere (fun x => x == 1) controlCol),
    ("treated", npWhere (fun x => x != 1) controlCol),
    ("train", npWhere (fun s => s == "train") splitCol),
    ("test", npWhere (fun s => s == "test") splitCol),
    ("ood", npWhere (fun s => s == "ood") splitCol) ]

/-- The `self.control_names` (lines 104-106): `np.unique` of the
perturbation names of the rows whose control flag equals 1. -/
def mkControlNames (pertNames : List String) (controlCol : List Int) : List String :=
  npUnique (((pertNames.zip controlCol).filter (fun pc => pc.2 == 1)).map Prod.fst)

/-- One covariate column encoded as integer indices (lines 148-161):
each value mapped to its position among the column's sorted unique
values (`np.unique` then `torch.arange`). -/
def encodeCovCol (col : List String) : List Nat :=
  col.map (fun v => (npUnique col).indexOf v)

/-- The `self.cov_names` (line 163): per row, the covariate values joined
with `"_"` in covariate-key order. -/
def mkCovNames (covValues : List (List String)) (n : Nat) : List String :=
  (List.range n).map (fun i => String.intercalate "_" (covValues.map (fun col => col.getD i "")))

/-- The per-row fields shared by `Dataset` and `SubDataset`: everything
`SubDataset.__init__` re-slices or copies by reference. -/
structure RowData where
  sample_cf : Bool
  cf_samples : Nat
  control_names : List String
  genes : List (List ℚ)
  perturbations : List (List ℚ)
  controls : List Bool
  pert_names : List String
  doses : List String
  cov_names : List String
  pert_dose : List String
  cov_pert_dose : List String
  covariates : List (List Nat)
  deriving Repr, DecidableEq, Inhabited

/-- The fully constructed `Dataset` (its claim-relevant attributes). -/
structure Dataset extends RowData where
  indices : List (String × List Nat)
  pert_unique : List String
  num_treatments : Nat
  deriving Repr, DecidableEq, Inhabited

/-- The `Dataset.__init__` after field resolution: builds the index
catalog, the perturbation vocabulary and per-sample dose-weighted
encodings, the composite grouping keys, and the control-name list.
`none` is an exception escaping the encoding loop of lines 128-136
(`KeyError`/`IndexError`).  `pf` stands for Python `float`. -/
def mkDataset (raw : RawData) (pf : String → ℚ) (sample_cf : Bool := false)
    (cf_samples : Nat := 20) : Option Dataset :=
  ((raw.pertNames.zip raw.doseStrs).mapM
    (fun pd => encodeSample (get_unique_perts raw.pertNames) pf pd.1 pd.2)).map
  fun perturbations =>
  let n := raw.genes.length
  let pert_unique := get_unique_perts raw.pertNames
  let cov_names := mkCovNames raw.covValues n
  let pert_dose := (List.range n).map
    (fun i => raw.pertNames.getD i "" ++ "_" ++ raw.doseStrs.getD i "")
  {
    sample_cf := sample_cf
    cf_samples := cf_samples
    control_names := mkControlNames raw.pertNames raw.controlCol
    genes := raw.genes
    perturbations := perturbations
    controls := raw.controlCol.map (fun x => x != 0)
    pert_names := raw.pertNames
    doses := raw.doseStrs
    cov_names := cov_names
    pert_dose := pert_dose
    cov_pert_dose := (List.range n).map
      (fun i => cov_names.getD i "" ++ "_" ++ pert_dose.getD i "")
    covariates := raw.covValues.map encodeCovCol
    indices := mkIndices raw.controlCol raw.splitCol n
    pert_unique := pert_unique
    num_treatments := pert_unique.length }

/-- The `self.indices[label]` (a `KeyError` on an unknown label is out of
scope; the six catalog labels always resolve). -/
def Dataset.indicesOf (d : Dataset) (label : String) : List Nat :=
  (d.indices.lookup label).getD []

/-! ## `SubDataset` (views) -/

/-- The `unique_ind` (imported from `..utils.general_utils`, not part of
this repository's sources).  Modelled from the spec: "a grouping index
…, mapping each distinct `cov_pert_dose` string to the list of row
positions sharing it". -/
def unique_ind (l : List String) : List (String × List Nat) :=
  (dedupFirst l).map (fun s => (s, npWhere (fun x => x == s) l))

/-- The `SubDataset`: the re-sliced per-row fields plus, when
counterfactual sampling is enabled, the grouping index
`cov_pert_dose_idx` (lines 251-252). -/
structure SubDataset extends RowData where
  cov_pert_dose_idx : List (String × List Nat)
  deriving Repr, DecidableEq, Inhabited

/-- The `SubDataset.__init__`: re-slice every per-row field of the source
by the index list (`indx`), copy the scalar attributes and shared
dictionaries by reference, and build the grouping index iff
`sample_cf`. -/
def mkSub (src : RowData) (indices : List Nat) : SubDataset :=
  let cov_pert_dose := indices.map (fun i => src.cov_pert_dose.getD i "")
  { sample_cf := src.sample_cf
    cf_samples := src.cf_samples
    control_names := src.control_names
    genes := indices.map (fun i => src.genes.getD i [])
    perturbations := indices.map (fun i => src.perturbations.getD i [])
    controls := indices.map (fun i => src.controls.getD i false)
    pert_names := indices.map (fun i => src.pert_names.getD i "")
    doses := indices.map (fun i => src.doses.getD i "")
    cov_names := indices.map (fun i => src.cov_names.getD i "")
    pert_dose := indices.map (fun i => src.pert_dose.getD i "")
    cov_pert_dose := cov_pert_dose
    covariates := src.covariates.map (fun cov => indices.map (fun i => cov.getD i 0))
    cov_pert_dose_idx := if src.sample_cf then unique_ind cov_pert_dose else [] }

/-- The `Dataset.subset(split, condition)` (lines 204-206): intersect the
two named index lists as Python sets and build a view. -/
def Dataset.subset (d : Dataset) (split : String) (condition : String := "all") :
    SubDataset :=
  mkSub d.toRowData (setInter (d.indicesOf split) (d.indicesOf condition))

/-- The `SubDataset.subset_condition` (lines 254-259): `None` returns the
view itself; a boolean restricts to the rows whose control flag equals
it. -/
def SubDataset.subset_condition (v : SubDataset) (control : Option Bool) : SubDataset :=
  match control with
  | none => v
  | some b => mkSub v.toRowData (npWhere (fun c => c == b) v.controls)

/-! ## `SubDataset.__getitem__` (lines 261-283) -/

/-- The acceptance test of the rejection loop, negated: the loop
condition `any(c in cf_pert_dose_name for c in self.control_names)`. -/
def isControlName (control_names : List String) (name : String) : Bool :=
  control_names.any (fun c => isSubstr c name)

/-- The rejection-sampling `while` loop of lines 263-266, driven by an
explicit finite stream of RNG outputs: each iteration consumes one
stream element `r`, draws candidate `cf_i = r % len(pert_dose)`
(`np.random.choice(len(self.pert_dose))` is uniform over `0..len-1`),
and stops when the candidate's `pert_dose` string defeats the loop
condition.  Returns the accepted index and the unconsumed stream;
`none` means the stream ran out with every draw rejected — the
fuel-indexed image of non-termination.  (The loop's initial name is
`control_names[0]`, which always satisfies the loop condition when
`control_names` is non-empty — see `isControlName_head` — so the loop
always draws at least once.) -/
def rejectLoop (control_names pert_dose : List String) :
    List Nat → Option (Nat × List Nat)
  | [] => none
  | r :: rs =>
    let cf_i := r % pert_dose.length
    if isControlName control_names (pert_dose.getD cf_i "") then
      rejectLoop control_names pert_dose rs
    else
      some (cf_i, rs)

/-- The `np.random.choice(l, k)` with the default `replace=True`: `k`
independent uniform draws from `l`, each consuming one RNG-stream
element; draws may repeat. -/
def npChoice (l : List Nat) (k : Nat) (rng : List Nat) : List Nat :=
  (List.range k).map (fun j => l.getD ((rng.getD j 0) % l.length) 0)

/-- The tuple returned by `__getitem__`: this sample's gene row, its
perturbation encoding, the optional counterfactual gene rows, the
accepted candidate's perturbation encoding, and the covariate index
values for this sample. -/
structure GetItemResult where
  genes_i : List ℚ
  pert_i : List ℚ
  cf_genes : Option (List (List ℚ))
  pert_cf : List ℚ
  covs_i : List Nat
  deriving DecidableEq, Repr, Inhabited

/-- The `SubDataset.__getitem__(i)` with the RNG made explicit: run the
rejection loop on the stream; on acceptance of `cf_i`, if `sample_cf`
build the group key `cov_names[i] + "_" + pert_dose[cf_i]`, and when
it is a key of `cov_pert_dose_idx` gather
`min(len(group), cf_samples)` gene rows drawn from the group with
replacement; otherwise `cf_genes` stays `None`.  `none` overall means
the rejection loop never terminated within the stream. -/
def SubDataset.getitem (v : SubDataset) (i : Nat) (rng : List Nat) :
    Option GetItemResult :=
  match rejectLoop v.control_names v.pert_dose rng with
  | none => none
  | some (cf_i, rng') =>
    let cf_pert_dose_name := v.pert_dose.getD cf_i ""
    let cf_genes : Option (List (List ℚ)) :=
      if v.sample_cf then
        let covariate_name := v.cov_names.getD i ""
        let cf_name := covariate_name ++ "_" ++ cf_pert_dose_name
        match v.cov_pert_dose_idx.lookup cf_name with
        | some cf_inds =>
          some ((npChoice cf_inds (min cf_inds.length v.cf_samples) rng').map
            (fun j => v.genes.getD j []))
        | none => none
      else none
    some { genes_i := v.genes.getD i []
           pert_i := v.perturbations.getD i []
           cf_genes := cf_genes
           pert_cf := v.perturbations.getD cf_i []
           covs_i := v.covariates.map (fun cov => cov.getD i 0) }

/-! ## Specification-side definitions and concrete fixtures -/

/-- The zero vector of length `n` (the spec's empty elementwise sum). -/
def zeroVec (n : Nat) : List ℚ :=
  List.replicate n 0

/-- Claim C1's formula, written from the spec's words (for the
refinement comparison with `encodeSample`): "the elementwise sum over
j of `float(d_j) * one_hot(a_j)`, where `one_hot(a_j)` is the
vocabulary basis vector of agent `a_j`". -/
def specCombinationEncoding (vocab : List String) (pf : String → ℚ)
    (agents doseParts : List String) : List ℚ :=
  (List.zipWith (fun d a => smulVec (pf d) (onehot (vocab.indexOf a) vocab.length))
    doseParts agents).foldl addVec (zeroVec vocab.length)

/-- A concrete stand-in for Python `float` on the dose literals used by
the fixtures. -/
def pfFix : String → ℚ :=
  fun s => if s = "1.0" then 1 else if s = "2.0" then 2 else if s = "3.0" then 3 else 0

/-- The spec's §8 scenario: 4 rows, perturbations
`["ctrl","drugA","drugA","drugA+drugB"]`, control flags `[1,0,0,0]`,
doses `["1.0","1.0","1.0","1.0+2.0"]`, one covariate
`cell_type=["X","X","Y","Y"]`. -/
def rawScenario : RawData :=
  { genes := [[1, 0], [2, 0], [3, 0], [4, 0]]
    pertNames := ["ctrl", "drugA", "drugA", "drugA+drugB"]
    doseStrs := ["1.0", "1.0", "1.0", "1.0+2.0"]
    controlCol := [1, 0, 0, 0]
    splitCol := ["train", "train", "test", "ood"]
    covValues := [["X", "X", "Y", "Y"]] }

/-- The scenario dataset, certified against the pipeline by
`rfl`-provable equations in the witnesses below. -/
def dScenario : Dataset :=
  (mkDataset rawScenario pfFix false 20).getD default

/-- The scenario's `subset("all", "all")` view (counterfactual
sampling disabled). -/
def vScenario : SubDataset :=
  dScenario.subset "all" "all"

/-- A 3-row fixture for the counterfactual sampler: one control row
and two rows sharing covariate `X`, perturbation `A` and dose `1.0`,
so the group `"X_A_1.0"` holds exactly the two row positions 1 and 2. -/
def rawCf : RawData :=
  { genes := [[10], [20], [30]]
    pertNames := ["ctrl", "A", "A"]
    doseStrs := ["1.0", "1.0", "1.0"]
    controlCol := [1, 0, 0]
    splitCol := ["train", "train", "train"]
    covValues := [["X", "X", "X"]] }

/-- The counterfactual fixture dataset (`sample_cf=True`,
`cf_samples=20`). -/
def dCf : Dataset :=
  (mkDataset rawCf pfFix true 20).getD default

/-- The counterfactual fixture's `subset("all", "all")` view. -/
def vCf : SubDataset :=
  dCf.subset "all" "all"

/-- A one-row fixture whose perturbation string splits into two parts
while its dose string splits into one ("A+B" versus "1.0"). -/
def rawMismatch : RawData :=
  { genes := [[0]]
    pertNames := ["A+B"]
    doseStrs := ["1.0"]
    controlCol := [0]
    splitCol := ["train"]
    covValues := [["X"]] }

/-! ## Helper lemmas -/

theorem isPrefixL_refl (l : List Char) : isPrefixL l l = true := by
  induction l with
  | nil => rfl
  | cons a as ih => simp [isPrefixL, ih]

theorem isSubstr_refl (s : String) : isSubstr s s = true := by
  unfold isSubstr
  cases h : s.data with
  | nil => simp [isInfixL, isPrefixL]
  | cons c rest => simp [isInfixL, isPrefixL_refl]

theorem isControlName_head (cns : List String) (h : cns ≠ []) :
    isControlName cns (cns.headD "") = true := by
  cases cns with
  | nil => exact absurd rfl h
  | cons c cs => simp [isControlName, List.any_cons, isSubstr_refl]

theorem splitOnChar_ne_nil (sep : Char) (l : List Char) : splitOnChar sep l ≠ [] := by
  cases l with
  | nil => simp [splitOnChar]
  | cons c cs =>
    simp only [splitOnChar]
    cases h : splitOnChar sep cs with
    | nil => simp
    | cons r rs =>
      by_cases hc : c == sep <;> simp [hc]

theorem splitPlus_ne_nil (s : String) : splitPlus s ≠ [] := by
  unfold splitPlus
  simp [splitOnChar_ne_nil]

theorem mem_dedupFirstAux [DecidableEq α] (a : α) (l : List α) :
    ∀ seen, a ∈ dedupFirstAux seen l ↔ a ∈ l ∧ a ∉ seen := by
  induction l with
  | nil => intro seen; simp [dedupFirstAux]
  | cons b bs ih =>
    intro seen
    by_cases hb : b ∈ seen
    · simp only [dedupFirstAux, if_pos hb, ih]
      constructor
      · rintro ⟨hmem, hns⟩
        exact ⟨List.mem_cons_of_mem _ hmem, hns⟩
      · rintro ⟨hmem, hns⟩
        rcases List.mem_cons.mp hmem with h | h
        · exact absurd (h ▸ hb) hns
        · exact ⟨h, hns⟩
    · simp only [dedupFirstAux, if_neg hb, List.mem_cons, ih]
      constructor
      · rintro (h | ⟨hmem, hns⟩)
        · exact ⟨Or.inl h, h ▸ hb⟩
        · exact ⟨Or.inr hmem, fun hs => hns (Or.inr hs)⟩
      · rintro ⟨h | h, hns⟩
        · exact Or.inl h
        · by_cases hab : a = b
          · exact Or.inl hab
          · exact Or.inr ⟨h, fun hs => by
              rcases hs with h' | h'
              · exact hab h'
              · exact hns h'⟩

theorem mem_dedupFirst [DecidableEq α] (a : α) (l : List α) :
    a ∈ dedupFirst l ↔ a ∈ l := by
  simp [dedupFirst, mem_dedupFirstAux]

theorem nodup_dedupFirstAux [DecidableEq α] (l : List α) :
    ∀ seen, (dedupFirstAux seen l).Nodup := by
  induction l with
  | nil => intro seen; simp [dedupFirstAux]
  | cons b bs ih =>
    intro seen
    by_cases hb : b ∈ seen
    · simpa [dedupFirstAux, if_pos hb] using ih seen
    · simp only [dedupFirstAux, if_neg hb]
      refine List.nodup_cons.mpr ⟨fun hmem => ?_, ih _⟩
      exact ((mem_dedupFirstAux b bs (b :: seen)).mp hmem).2 (List.mem_cons_self _ _)

theorem nodup_dedupFirst [DecidableEq α] (l : List α) : (dedupFirst l).Nodup :=
  nodup_dedupFirstAux l []

theorem dedupFirstAux_eq_self [DecidableEq α] (l : List α) (hl : l.Nodup) :
    ∀ seen, (∀ a ∈ l, a ∉ seen) → dedupFirstAux seen l = l := by
  induction l with
  | nil => intro seen _; rfl
  | cons b bs ih =>
    intro seen hs
    have hb : b ∉ seen := hs b (List.mem_cons_self _ _)
    have hbs : b ∉ bs := (List.nodup_cons.mp hl).1
    simp only [dedupFirstAux, if_neg hb]
    refine congrArg (b :: ·) (ih (List.nodup_cons.mp hl).2 _ ?_)
    intro a ha
    intro hmem
    rcases List.mem_cons.mp hmem with h | h
    · exact hbs (h ▸ ha)
    · exact hs a (List.mem_cons_of_mem _ ha) h

theorem dedupFirst_eq_self [DecidableEq α] (l : List α) (hl : l.Nodup) :
    dedupFirst l = l :=
  dedupFirstAux_eq_self l hl [] (by simp)

theorem mem_npWhere [Inhabited α] (p : α → Bool) (l : List α) (i : Nat) :
    i ∈ npWhere p l ↔ i < l.length ∧ p (l.getD i default) = true := by
  simp [npWhere, List.mem_filter, List.mem_range]

theorem nodup_npWhere [Inhabited α] (p : α → Bool) (l : List α) :
    (npWhere p l).Nodup :=
  (List.nodup_range _).filter _

theorem npWhere_cons [Inhabited α] (p : α → Bool) (x : α) (xs : List α) :
    npWhere p (x :: xs) =
      (if p x then [0] else []) ++ (npWhere p xs).map (· + 1) := by
  simp only [npWhere, List.length_cons, List.range_succ_eq_map]
  rw [List.filter_cons]
  simp only [List.filter_map]
  have hpred : ((fun i => p ((x :: xs).getD i default)) ∘ Nat.succ)
      = fun i => p (xs.getD i default) := by
    funext i
    simp [Function.comp, List.getD_cons_succ]
  rw [hpred]
  have hmap : List.map Nat.succ (List.filter (fun i => p (xs.getD i default))
        (List.range xs.length))
      = List.map (· + 1) (List.filter (fun i => p (xs.getD i default))
        (List.range xs.length)) := by
    refine List.map_congr_left ?_
    intro i _
    rfl
  by_cases hx : p x
  · simp [List.getD_cons_zero, hx, hmap]
  · simp [List.getD_cons_zero, hx, hmap]

theorem map_getD_npWhere [Inhabited α] [Inhabited β] (p : α → Bool) (dflt : β) :
    ∀ (l : List α) (g : List β), l.length = g.length →
      (npWhere p l).map (fun i => g.getD i dflt) =
        ((g.zip l).filter (fun pc => p pc.2)).map Prod.fst := by
  intro l
  induction l with
  | nil => intro g hg; simp [npWhere]
  | cons x xs ih =>
    intro g hg
    cases g with
    | nil => simp at hg
    | cons y ys =>
      have hg' : xs.length = ys.length := by simpa using hg
      rw [npWhere_cons, List.map_append, List.map_map]
      have htail : List.map ((fun i => (y :: ys).getD i dflt) ∘ (· + 1)) (npWhere p xs)
          = ((ys.zip xs).filter (fun pc => p pc.2)).map Prod.fst := by
        rw [← ih ys hg']
        refine List.map_congr_left ?_
        intro i _
        simp [Function.comp, List.getD_cons_succ]
      rw [htail]
      by_cases hx : p x
      · rw [if_pos hx]
        simp only [List.zip_cons_cons, List.filter_cons, hx, if_pos]
        simp [List.getD_cons_zero]
      · rw [if_neg hx]
        simp only [List.zip_cons_cons, List.filter_cons]
        simp [hx]

theorem map_getD_range (l : List α) (dflt : α) :
    (List.range l.length).map (fun i => l.getD i dflt) = l := by
  induction l with
  | nil => simp
  | cons x xs ih =>
    rw [List.length_cons, List.range_succ_eq_map, List.map_cons, List.map_map]
    have htail : List.map ((fun i => (x :: xs).getD i dflt) ∘ Nat.succ)
        (List.range xs.length) = List.map (fun i => xs.getD i dflt)
        (List.range xs.length) := by
      refine List.map_congr_left ?_
      intro i _
      simp [Function.comp, List.getD_cons_succ]
    rw [htail, ih]
    simp [List.getD_cons_zero]

theorem mem_setInter [DecidableEq α] (x : α) (a b : List α) :
    x ∈ setInter a b ↔ x ∈ a ∧ x ∈ b := by
  simp [setInter, mem_dedupFirst, List.mem_filter]

theorem setInter_self [DecidableEq α] (a : List α) (ha : a.Nodup) :
    setInter a a = a := by
  unfold setInter
  rw [List.filter_eq_self.mpr (fun x hx => by simpa using hx)]
  exact dedupFirst_eq_self a ha

theorem mapM_option_forall₂ (f : α → Option β) :
    ∀ (l : List α) (r : List β), l.mapM f = some r →
      List.Forall₂ (fun a b => f a = some b) l r := by
  intro l
  induction l with
  | nil =>
    intro r h
    simp only [List.mapM_nil] at h
    cases h
    exact List.Forall₂.nil
  | cons a as ih =>
    intro r h
    rw [List.mapM_cons] at h
    cases hfa : f a with
    | none => rw [hfa] at h; simp at h
    | some b =>
      rw [hfa] at h
      cases hm : as.mapM f with
      | none => rw [hm] at h; simp at h
      | some bs =>
        rw [hm] at h
        simp only [Option.bind_some, Option.pure_def, Option.some_inj] at h
        cases h
        exact List.Forall₂.cons hfa (ih bs hm)

theorem mapM_option_isSome (f : α → Option β) :
    ∀ (l : List α), (∀ a ∈ l, (f a).isSome = true) → ∃ r, l.mapM f = some r := by
  intro l
  induction l with
  | nil => intro _; exact ⟨[], rfl⟩
  | cons a as ih =>
    intro hall
    obtain ⟨b, hb⟩ := Option.isSome_iff_exists.mp (hall a (List.mem_cons_self _ _))
    obtain ⟨bs, hbs⟩ := ih (fun x hx => hall x (List.mem_cons_of_mem _ hx))
    exact ⟨b :: bs, by rw [List.mapM_cons, hb, hbs]; rfl⟩

theorem lookup_zip_some (l : List String) (m : List (List ℚ)) (a : String)
    (v : List ℚ) :
    ∀ _h : (l.zip m).lookup a = some v,
      l.indexOf a < l.length ∧ m[l.indexOf a]? = some v := by
  induction l generalizing m with
  | nil => intro h; simp [List.lookup] at h
  | cons x xs ih =>
    intro h
    cases m with
    | nil => simp [List.lookup] at h
    | cons y ys =>
      simp only [List.zip_cons_cons, List.lookup] at h
      by_cases hax : a == x
      · simp only [hax] at h
        cases h
        have : x == a := by
          have := eq_of_beq hax
          simp [this]
        simp [List.indexOf_cons, this]
      · simp only [Bool.not_eq_true] at hax
        simp only [hax] at h
        obtain ⟨hlt, hget⟩ := ih ys h
        have hxa : (x == a) = false := by
          by_contra hcontr
          rw [Bool.not_eq_false] at hcontr
          have hx_eq : x = a := eq_of_beq hcontr
          subst hx_eq
          simp at hax
        constructor
        · simpa [List.indexOf_cons, hxa, Nat.succ_lt_succ] using hlt
        · simpa [List.indexOf_cons, hxa] using hget

theorem lookup_zip_of_nodup (l : List String) (m : List (List ℚ)) (hl : l.Nodup) :
    ∀ i, i < l.length → i < m.length →
      (l.zip m).lookup (l.getD i "") = some (m.getD i []) := by
  induction l generalizing m with
  | nil => intro i hi _; simp at hi
  | cons x xs ih =>
    intro i hi him
    cases m with
    | nil => simp at him
    | cons y ys =>
      cases i with
      | zero => simp [List.zip_cons_cons, List.lookup, List.getD_cons_zero]
      | succ j =>
        have hj : j < xs.length := by simpa using hi
        have hjm : j < ys.length := by simpa using him
        have hx : xs.getD j "" ≠ x := by
          intro hcontr
          have : x ∈ xs := by
            rw [← hcontr]
            have := List.getD_eq_getElem xs "" hj
            rw [this]
            exact List.getElem_mem hj
          exact (List.nodup_cons.mp hl).1 this
        have hbeq : (xs.getD j "" == x) = false := by
          simpa using hx
        simp only [List.zip_cons_cons, List.lookup, List.getD_cons_succ, hbeq]
        exact ih ys (List.nodup_cons.mp hl).2 j hj hjm

theorem eyeRows_getD (n i : Nat) (h : i < n) :
    (eyeRows n).getD i [] = onehot i n := by
  unfold eyeRows
  rw [List.getD_eq_getElem?_getD, List.getElem?_map, List.getElem?_range h]
  rfl

theorem onehot_length (i n : Nat) : (onehot i n).length = n := by
  simp [onehot]

theorem smulVec_length (d : ℚ) (v : List ℚ) : (smulVec d v).length = v.length := by
  simp [smulVec]

theorem addVec_zeroVec (v : List ℚ) : addVec (zeroVec v.length) v = v := by
  induction v with
  | nil => rfl
  | cons x xs ih =>
    simp only [zeroVec, List.length_cons, List.replicate_succ] at *
    simp only [addVec, List.zipWith_cons_cons, zero_add]
    exact congrArg (x :: ·) ih

theorem scaleLoop_eq_none_iff (pf : String → ℚ) :
    ∀ (ds : List String) (vs : List (List ℚ)),
      scaleLoop pf ds vs = none ↔ vs.length < ds.length := by
  intro ds
  induction ds with
  | nil => intro vs; simp [scaleLoop]
  | cons d ds ih =>
    intro vs
    cases vs with
    | nil => simp [scaleLoop]
    | cons v vs =>
      simp only [scaleLoop, List.length_cons, Option.map_eq_none', ih,
        Nat.succ_lt_succ_iff]

theorem scaleLoop_eq_zipWith (pf : String → ℚ) :
    ∀ (ds : List String) (vs : List (List ℚ)), ds.length ≤ vs.length →
      scaleLoop pf ds vs = some (List.zipWith (fun d v => smulVec (pf d) v) ds vs) := by
  intro ds
  induction ds with
  | nil => intro vs _; simp [scaleLoop]
  | cons d ds ih =>
    intro vs hlen
    cases vs with
    | nil => simp at hlen
    | cons v vs =>
      have : ds.length ≤ vs.length := by simpa using hlen
      simp [scaleLoop, ih vs this, List.zipWith_cons_cons]

theorem sumVecs_eq_foldl_zeroVec (n : Nat) :
    ∀ vs : List (List ℚ), vs ≠ [] → (∀ v ∈ vs, v.length = n) →
      sumVecs vs = vs.foldl addVec (zeroVec n) := by
  intro vs hne hlen
  cases vs with
  | nil => exact absurd rfl hne
  | cons v vs =>
    have hv : v.length = n := hlen v (List.mem_cons_self _ _)
    simp only [sumVecs, List.foldl_cons]
    rw [show addVec (zeroVec n) v = v from hv ▸ addVec_zeroVec v]

theorem encodeSample_inv (vocab : List String) (pf : String → ℚ)
    (pert dose : String) (res : List ℚ)
    (h : encodeSample vocab pf pert dose = some res) :
    ∃ combos scaled,
      (splitPlus pert).mapM (pertsDictLookup vocab) = some combos ∧
      scaleLoop pf (splitPlus dose) combos = some scaled ∧
      res = sumVecs scaled := by
  unfold encodeSample at h
  cases hm : (splitPlus pert).mapM (pertsDictLookup vocab) with
  | none => rw [hm] at h; simp at h
  | some combos =>
    rw [hm] at h
    simp only [Option.bind_eq_bind, Option.some_bind] at h
    cases hs : scaleLoop pf (splitPlus dose) combos with
    | none => rw [hs] at h; simp at h
    | some scaled =>
      rw [hs] at h
      simp only [Option.some_bind, Option.pure_def, Option.some_inj] at h
      exact ⟨combos, scaled, rfl, hs, h.symm⟩

theorem getD_mem_of_lt [Inhabited α] (l : List α) (i : Nat) (h : i < l.length) :
    l.getD i default ∈ l := by
  rw [List.getD_eq_getElem l default h]
  exact List.getElem_mem h

theorem rejectLoop_sound (cns pd : List String) :
    ∀ (rng : List Nat) (i : Nat) (rng' : List Nat),
      rejectLoop cns pd rng = some (i, rng') →
      isControlName cns (pd.getD i "") = false := by
  intro rng
  induction rng with
  | nil => intro i rng' h; simp [rejectLoop] at h
  | cons r rs ih =>
    intro i rng' h
    simp only [rejectLoop] at h
    by_cases hc : isControlName cns (pd.getD (r % pd.length) "")
    · rw [if_pos hc] at h
      exact ih i rng' h
    · rw [if_neg hc] at h
      cases h
      simpa using hc

theorem rejectLoop_never_terminates (cns pd : List String) (hpd : pd ≠ [])
    (hall : ∀ i, i < pd.length → isControlName cns (pd.getD i "") = true) :
    ∀ rng : List Nat, rejectLoop cns pd rng = none := by
  intro rng
  induction rng with
  | nil => rfl
  | cons r rs ih =>
    have hlen : 0 < pd.length := List.length_pos.mpr hpd
    have hcand : isControlName cns (pd.getD (r % pd.length) "") = true :=
      hall _ (Nat.mod_lt r hlen)
    simp only [rejectLoop, if_pos hcand]
    exact ih

theorem npChoice_length (l : List Nat) (k : Nat) (rng : List Nat) :
    (npChoice l k rng).length = k := by
  simp [npChoice]

theorem npChoice_mem (l : List Nat) (hl : l ≠ []) (k : Nat) (rng : List Nat) :
    ∀ x ∈ npChoice l k rng, x ∈ l := by
  intro x hx
  simp only [npChoice, List.mem_map] at hx
  obtain ⟨j, _, hj⟩ := hx
  rw [← hj]
  have hlen : 0 < l.length := List.length_pos.mpr hl
  have : (rng.getD j 0) % l.length < l.length := Nat.mod_lt _ hlen
  have heq := List.getD_eq_getElem l 0 this
  rw [heq]
  exact List.getElem_mem this

theorem forall₂_getD {R : α → β → Prop} :
    ∀ {l : List α} {r : List β}, List.Forall₂ R l r → ∀ i, i < l.length →
      ∀ (da : α) (db : β), R (l.getD i da) (r.getD i db) := by
  intro l r h
  induction h with
  | nil => intro i hi; simp at hi
  | cons hab _ ih =>
    intro i hi da db
    cases i with
    | zero => simpa [List.getD_cons_zero] using hab
    | succ j =>
      simp only [List.getD_cons_succ]
      exact ih j (by simpa using hi) da db

theorem zip_getD (l : List α) (m : List β) (i : Nat)
    (hi : i < (l.zip m).length) (da : α) (db : β) :
    (l.zip m).getD i (da, db) = (l.getD i da, m.getD i db) := by
  induction l generalizing m i with
  | nil => simp at hi
  | cons x xs ih =>
    cases m with
    | nil => simp at hi
    | cons y ys =>
      cases i with
      | zero => simp [List.zip_cons_cons, List.getD_cons_zero]
      | succ j =>
        simp only [List.zip_cons_cons, List.getD_cons_succ]
        exact ih ys j (by simpa using hi)

theorem zipWith_subst {g : α → γ} {f : δ → γ → ε} :
    ∀ {as : List α} {cs : List γ}, List.Forall₂ (fun a c => c = g a) as cs →
      ∀ ds : List δ,
        List.zipWith f ds cs = List.zipWith (fun d a => f d (g a)) ds as := by
  intro as cs h
  induction h with
  | nil => intro ds; simp
  | cons hac _ ih =>
    intro ds
    cases ds with
    | nil => simp
    | cons d ds =>
      simp only [List.zipWith_cons_cons, hac]
      exact congrArg _ (ih ds)

theorem mem_zipWith_imp {f : α → β → γ} :
    ∀ {xs : List α} {ys : List β} {c : γ}, c ∈ List.zipWith f xs ys →
      ∃ x y, c = f x y := by
  intro xs
  induction xs with
  | nil => intro ys c hc; simp at hc
  | cons x xs ih =>
    intro ys c hc
    cases ys with
    | nil => simp at hc
    | cons y ys =>
      simp only [List.zipWith_cons_cons, List.mem_cons] at hc
      rcases hc with hc | hc
      · exact ⟨x, y, hc⟩
      · exact ih hc

theorem specCombinationEncoding_singleton (vocab : List String) (pf : String → ℚ)
    (a dstr : String) :
    specCombinationEncoding vocab pf [a] [dstr] =
      smulVec (pf dstr) (onehot (vocab.indexOf a) vocab.length) := by
  unfold specCombinationEncoding
  simp only [List.zipWith_cons_cons, List.zipWith_nil_right, List.foldl_cons,
    List.foldl_nil]
  have hlen : (smulVec (pf dstr) (onehot (vocab.indexOf a) vocab.length)).length
      = vocab.length := by
    rw [smulVec_length, onehot_length]
  rw [show addVec (zeroVec vocab.length) _ = _ from hlen ▸ addVec_zeroVec _]

theorem mkDataset_fields (raw : RawData) (pf : String → ℚ) (b : Bool) (k : Nat)
    (d : Dataset) (h : mkDataset raw pf b k = some d) :
    (raw.pertNames.zip raw.doseStrs).mapM
      (fun pd => encodeSample (get_unique_perts raw.pertNames) pf pd.1 pd.2)
      = some d.perturbations ∧
    d.pert_unique = get_unique_perts raw.pertNames ∧
    d.num_treatments = (get_unique_perts raw.pertNames).length ∧
    d.indices = mkIndices raw.controlCol raw.splitCol raw.genes.length ∧
    d.genes = raw.genes ∧
    d.controls = raw.controlCol.map (fun x => x != 0) ∧
    d.control_names = mkControlNames raw.pertNames raw.controlCol ∧
    d.sample_cf = b ∧ d.cf_samples = k ∧
    d.pert_names = raw.pertNames ∧ d.doses = raw.doseStrs ∧
    d.cov_names = mkCovNames raw.covValues raw.genes.length ∧
    d.pert_dose = (List.range raw.genes.length).map
      (fun i => raw.pertNames.getD i "" ++ "_" ++ raw.doseStrs.getD i "") ∧
    d.covariates = raw.covValues.map encodeCovCol := by
  unfold mkDataset at h
  rw [Option.map_eq_some'] at h
  obtain ⟨perts, hm, hd⟩ := h
  subst hd
  exact ⟨hm, rfl, rfl, rfl, rfl, rfl, rfl, rfl, rfl, rfl, rfl, rfl, rfl, rfl⟩

theorem indicesOf_mkIndices (c : List Int) (s : List String) (n : Nat)
    (d : Dataset) (hidx : d.indices = mkIndices c s n) :
    d.indicesOf "all" = List.range n ∧
    d.indicesOf "control" = npWhere (fun x => x == 1) c ∧
    d.indicesOf "treated" = npWhere (fun x => x != 1) c ∧
    d.indicesOf "train" = npWhere (fun x => x == "train") s ∧
    d.indicesOf "test" = npWhere (fun x => x == "test") s ∧
    d.indicesOf "ood" = npWhere (fun x => x == "ood") s := by
  unfold Dataset.indicesOf
  rw [hidx]
  exact ⟨rfl, rfl, rfl, rfl, rfl, rfl⟩

/-! ## Claim theorems -/

/-- C2: for every constructed Dataset, the `control` and `treated`
index lists partition the `all` index list exactly: every row position
in `all` lies in exactly one of `control` (control-flag column equals
1) and `treated` (control-flag column differs from 1), and neither
list repeats a position. -/
theorem C2_control_treated_partition (raw : RawData) (pf : String → ℚ)
    (b : Bool) (k : Nat) (d : Dataset) (hd : mkDataset raw pf b k = some d)
    (hlen : raw.controlCol.length = raw.genes.length) :
    (∀ i, i ∈ d.indicesOf "all" ↔
      (i ∈ d.indicesOf "control" ∨ i ∈ d.indicesOf "treated")) ∧
    (∀ i, ¬ (i ∈ d.indicesOf "control" ∧ i ∈ d.indicesOf "treated")) ∧
    (d.indicesOf "all").Nodup ∧ (d.indicesOf "control").Nodup ∧
    (d.indicesOf "treated").Nodup := by
  obtain ⟨-, -, -, hidx, -⟩ := mkDataset_fields raw pf b k d hd
  obtain ⟨hall, hctrl, htrt, -⟩ :=
    indicesOf_mkIndices raw.controlCol raw.splitCol raw.genes.length d hidx
  rw [hall, hctrl, htrt]
  refine ⟨?_, ?_, List.nodup_range _, nodup_npWhere _ _, nodup_npWhere _ _⟩
  · intro i
    rw [List.mem_range, mem_npWhere, mem_npWhere, hlen]
    constructor
    · intro hi
      by_cases h1 : raw.controlCol.getD i default == 1
      · exact Or.inl ⟨hi, h1⟩
      · exact Or.inr ⟨hi, by simpa [bne] using h1⟩
    · rintro (⟨hi, -⟩ | ⟨hi, -⟩) <;> exact hi
  · rintro i ⟨hc, ht⟩
    rw [mem_npWhere] at hc ht
    have h1 := hc.2
    have h2 := ht.2
    simp only [bne] at h2
    rw [h1] at h2
    simp at h2

/-- C2 witness: the partition at the spec's 4-row scenario, checked on
row 0 (a control row) and row 1 (a treated row). -/
theorem C2_control_treated_partition_witness :
    (0 ∈ dScenario.indicesOf "all" ↔
      (0 ∈ dScenario.indicesOf "control" ∨ 0 ∈ dScenario.indicesOf "treated")) ∧
    ¬ (1 ∈ dScenario.indicesOf "control" ∧ 1 ∈ dScenario.indicesOf "treated") := by
  have h := C2_control_treated_partition rawScenario pfFix false 20 dScenario
    (by rfl) (by decide)
  exact ⟨h.1 0, h.2.1 1⟩

/-- C7: for every constructed Dataset, `subset("all","all")` is built
over an index list equal to `range n` (every original row position
exactly once) and its gene matrix is the original one; and `subset`
over two condition labels with disjoint index lists yields views over
disjoint row-position sets. -/
theorem C7_subset_all_and_disjoint (raw : RawData) (pf : String → ℚ)
    (b : Bool) (k : Nat) (d : Dataset) (hd : mkDataset raw pf b k = some d) :
    setInter (d.indicesOf "all") (d.indicesOf "all") =
      List.range raw.genes.length ∧
    (d.subset "all" "all").genes = d.genes ∧
    (∀ s c1 c2 : String, List.Disjoint (d.indicesOf c1) (d.indicesOf c2) →
      List.Disjoint (setInter (d.indicesOf s) (d.indicesOf c1))
        (setInter (d.indicesOf s) (d.indicesOf c2))) := by
  obtain ⟨-, -, -, hidx, hgenes, -⟩ := mkDataset_fields raw pf b k d hd
  obtain ⟨hall, -⟩ :=
    indicesOf_mkIndices raw.controlCol raw.splitCol raw.genes.length d hidx
  have h1 : setInter (d.indicesOf "all") (d.indicesOf "all") =
      List.range raw.genes.length := by
    rw [hall]
    exact setInter_self _ (List.nodup_range _)
  refine ⟨h1, ?_, ?_⟩
  · show (mkSub d.toRowData (setInter (d.indicesOf "all") (d.indicesOf "all"))).genes
      = d.genes
    unfold mkSub
    show (setInter (d.indicesOf "all") (d.indicesOf "all")).map
      (fun i => d.toRowData.genes.getD i []) = d.genes
    rw [h1]
    show (List.range raw.genes.length).map (fun i => d.genes.getD i []) = d.genes
    rw [hgenes]
    exact map_getD_range raw.genes []
  · intro s c1 c2 hdisj x hx1 hx2
    rw [mem_setInter] at hx1 hx2
    exact hdisj hx1.2 hx2.2

/-- C7 witness: at the spec's scenario, `subset("all","all")` keeps
all 4 gene rows, and the disjoint `train`/`test` condition labels give
disjoint subset index lists. -/
theorem C7_subset_all_and_disjoint_witness :
    (dScenario.subset "all" "all").genes = dScenario.genes ∧
    List.Disjoint (setInter (dScenario.indicesOf "all") (dScenario.indicesOf "train"))
      (setInter (dScenario.indicesOf "all") (dScenario.indicesOf "test")) := by
  have h := C7_subset_all_and_disjoint rawScenario pfFix false 20 dScenario (by rfl)
  refine ⟨h.2.1, h.2.2 "all" "train" "test" ?_⟩
  have htr : dScenario.indicesOf "train" = [0, 1] := by rfl
  have hte : dScenario.indicesOf "test" = [2] := by rfl
  rw [htr, hte]
  intro x hx1 hx2
  rcases List.mem_cons.mp hx1 with h | h
  · subst h; simp at hx2
  · rcases List.mem_cons.mp h with h' | h'
    · subst h'; simp at hx2
    · simp at h'

/-- C8: `num_treatments` counts the distinct single agents obtained by
splitting every perturbation string on `"+"` and deduplicating in
first-seen order — not the distinct unsplit combination strings (the
two counts differ already on `["A+B"]`) — and vocabulary member `i`
maps through `perts_dict` to the one-hot vector with a `1` at
position `i`. -/
theorem C8_vocabulary_size_and_basis (raw : RawData) (pf : String → ℚ)
    (b : Bool) (k : Nat) (d : Dataset) (hd : mkDataset raw pf b k = some d) :
    d.num_treatments = (dedupFirst (raw.pertNames.flatMap splitPlus)).length ∧
    (∀ i, i < d.pert_unique.length →
      pertsDictLookup d.pert_unique (d.pert_unique.getD i "") =
        some (onehot i d.pert_unique.length)) ∧
    (get_unique_perts ["A+B"]).length ≠ (dedupFirst ["A+B"]).length := by
  obtain ⟨-, hvocab, hnum, -⟩ := mkDataset_fields raw pf b k d hd
  refine ⟨by rw [hnum]; rfl, ?_, by decide⟩
  intro i hi
  have hnodup : d.pert_unique.Nodup := by
    rw [hvocab]
    exact nodup_dedupFirst _
  have h := lookup_zip_of_nodup d.pert_unique (eyeRows d.pert_unique.length)
    hnodup i hi (by simpa [eyeRows] using hi)
  unfold pertsDictLookup
  rw [h, eyeRows_getD _ _ hi]

/-- C8 witness: at the spec's scenario the vocabulary is
`{ctrl, drugA, drugB}` of size 3, and member 2 (`drugB`) maps to
`[0,0,1]`. -/
theorem C8_vocabulary_size_and_basis_witness :
    dScenario.num_treatments =
      (dedupFirst (rawScenario.pertNames.flatMap splitPlus)).length ∧
    pertsDictLookup dScenario.pert_unique (dScenario.pert_unique.getD 2 "") =
      some (onehot 2 dScenario.pert_unique.length) := by
  have h := C8_vocabulary_size_and_basis rawScenario pfFix false 20 dScenario (by rfl)
  exact ⟨h.1, h.2.1 2 (by decide)⟩

/-- C1: every sample's stored perturbation-encoding vector equals the
spec's elementwise sum of `float(dose_part) * one_hot(agent_part)`
over the aligned combination parts; a single non-combination sample
reduces to `dose * one_hot(perturbation)`. -/
theorem C1_dose_weighted_combination_encoding (raw : RawData)
    (pf : String → ℚ) (b : Bool) (k : Nat) (d : Dataset)
    (hd : mkDataset raw pf b k = some d) (i : Nat)
    (hi : i < d.perturbations.length)
    (hlen : (splitPlus (raw.pertNames.getD i "")).length =
      (splitPlus (raw.doseStrs.getD i "")).length) :
    d.perturbations.getD i [] =
      specCombinationEncoding d.pert_unique pf
        (splitPlus (raw.pertNames.getD i ""))
        (splitPlus (raw.doseStrs.getD i "")) ∧
    (splitPlus (raw.pertNames.getD i "") = [raw.pertNames.getD i ""] →
     splitPlus (raw.doseStrs.getD i "") = [raw.doseStrs.getD i ""] →
     d.perturbations.getD i [] =
       smulVec (pf (raw.doseStrs.getD i ""))
         (onehot (d.pert_unique.indexOf (raw.pertNames.getD i ""))
           d.pert_unique.length)) := by
  obtain ⟨hmapm, hvocab, -⟩ := mkDataset_fields raw pf b k d hd
  have hforall := mapM_option_forall₂ _ _ _ hmapm
  have hzlen := hforall.length_eq
  have hi' : i < (raw.pertNames.zip raw.doseStrs).length := by
    rw [hzlen]; exact hi
  have henc0 := forall₂_getD hforall i hi' ("", "") []
  rw [zip_getD raw.pertNames raw.doseStrs i hi' "" ""] at henc0
  obtain ⟨combos, scaled, hcombos, hscale, hres⟩ :=
    encodeSample_inv _ pf _ _ _ henc0
  have hF := mapM_option_forall₂ _ _ _ hcombos
  have hB : List.Forall₂
      (fun a c => c = onehot ((get_unique_perts raw.pertNames).indexOf a)
        (get_unique_perts raw.pertNames).length)
      (splitPlus (raw.pertNames.getD i "")) combos := by
    refine hF.imp ?_
    intro a c hac
    unfold pertsDictLookup at hac
    obtain ⟨hlt, hget⟩ := lookup_zip_some _ _ a c hac
    unfold eyeRows at hget
    rw [List.getElem?_map, List.getElem?_range hlt] at hget
    simpa using hget.symm
  have hclen : combos.length = (splitPlus (raw.pertNames.getD i "")).length :=
    hF.length_eq.symm
  have hle : (splitPlus (raw.doseStrs.getD i "")).length ≤ combos.length := by
    rw [hclen, ← hlen]
  have hscale2 := scaleLoop_eq_zipWith pf _ _ hle
  rw [hscale] at hscale2
  have hscaled : scaled = List.zipWith
      (fun dstr a => smulVec (pf dstr)
        (onehot ((get_unique_perts raw.pertNames).indexOf a)
          (get_unique_perts raw.pertNames).length))
      (splitPlus (raw.doseStrs.getD i ""))
      (splitPlus (raw.pertNames.getD i "")) := by
    have hz := zipWith_subst
      (g := fun a => onehot ((get_unique_perts raw.pertNames).indexOf a)
        (get_unique_perts raw.pertNames).length)
      (f := fun dstr v => smulVec (pf dstr) v)
      hB (splitPlus (raw.doseStrs.getD i ""))
    rw [← hz]
    exact Option.some_inj.mp hscale2
  have hshape : ∀ v ∈ scaled, v.length = (get_unique_perts raw.pertNames).length := by
    intro v hv
    rw [hscaled] at hv
    obtain ⟨x, y, hxy⟩ := mem_zipWith_imp hv
    rw [hxy, smulVec_length, onehot_length]
  have hne : scaled ≠ [] := by
    rw [hscaled]
    intro hcontr
    rcases List.zipWith_eq_nil_iff.mp hcontr with h | h
    · exact splitPlus_ne_nil _ h
    · exact splitPlus_ne_nil _ h
  have hmain : d.perturbations.getD i [] =
      specCombinationEncoding (get_unique_perts raw.pertNames) pf
        (splitPlus (raw.pertNames.getD i ""))
        (splitPlus (raw.doseStrs.getD i "")) := by
    rw [hres, sumVecs_eq_foldl_zeroVec _ scaled hne hshape, hscaled]
    rfl
  constructor
  · rw [hvocab]
    exact hmain
  · intro hsp hsd
    rw [hvocab]
    rw [hmain, hsp, hsd, specCombinationEncoding_singleton]

/-- C1 witness: at the spec's scenario, row 3 (`"drugA+drugB"` at
doses `"1.0+2.0"`) and row 1 (single `"drugA"` at `"1.0"`) satisfy
both parts of C1. -/
theorem C1_dose_weighted_combination_encoding_witness :
    dScenario.perturbations.getD 3 [] =
      specCombinationEncoding dScenario.pert_unique pfFix
        (splitPlus (rawScenario.pertNames.getD 3 ""))
        (splitPlus (rawScenario.doseStrs.getD 3 "")) ∧
    dScenario.perturbations.getD 1 [] =
      smulVec (pfFix (rawScenario.doseStrs.getD 1 ""))
        (onehot (dScenario.pert_unique.indexOf (rawScenario.pertNames.getD 1 ""))
          dScenario.pert_unique.length) := by
  refine ⟨(C1_dose_weighted_combination_encoding rawScenario pfFix false 20
    dScenario (by rfl) 3 (by decide) (by decide)).1, ?_⟩
  exact (C1_dose_weighted_combination_encoding rawScenario pfFix false 20
    dScenario (by rfl) 1 (by decide) (by decide)).2 (by decide) (by decide)

/-- C3: the rejection loop of `__getitem__` always enters (the seed
name `control_names[0]` matches itself), accepts a candidate exactly
when no registered control name is a substring of its `pert_dose`
string, and — having no iteration bound — returns no result for any
finite number of draws when every row's `pert_dose` string contains a
control name (e.g. when every row is control): the loop never
terminates. -/
theorem C3_rejection_loop_behaviour (cns pd : List String) :
    (cns ≠ [] → isControlName cns (cns.headD "") = true) ∧
    (∀ (rng : List Nat) (i : Nat) (rng' : List Nat),
      rejectLoop cns pd rng = some (i, rng') →
      isControlName cns (pd.getD i "") = false) ∧
    (pd ≠ [] → (∀ i, i < pd.length → isControlName cns (pd.getD i "") = true) →
      ∀ rng : List Nat, rejectLoop cns pd rng = none) := by
  refine ⟨isControlName_head cns, rejectLoop_sound cns pd, ?_⟩
  intro hpd hall
  exact rejectLoop_never_terminates cns pd hpd hall

/-- C3 witness: with control name `"ctrl"`, the loop accepts row 0 of
`["drugA_1.0"]` on the first draw, while over the all-control view
`["ctrl_1.0"]` it returns nothing for the three-draw stream
`[0, 1, 2]`. -/
theorem C3_rejection_loop_behaviour_witness :
    isControlName ["ctrl"] (["ctrl"].headD "") = true ∧
    isControlName ["ctrl"] (["drugA_1.0"].getD 0 "") = false ∧
    rejectLoop ["ctrl"] ["ctrl_1.0"] [0, 1, 2] = none := by
  refine ⟨(C3_rejection_loop_behaviour ["ctrl"] ["drugA_1.0"]).1 (by decide),
    (C3_rejection_loop_behaviour ["ctrl"] ["drugA_1.0"]).2.1 [0] 0 []
      (by decide), ?_⟩
  exact (C3_rejection_loop_behaviour ["ctrl"] ["ctrl_1.0"]).2.2 (by decide)
    (by decide) [0, 1, 2]

/-- C9: `subset_condition(None)` returns the very same view, while
`subset_condition(b)` restricts to exactly the rows whose control flag
equals `b`: every control flag of the restricted view is `b`, and its
gene rows are precisely the gene rows of the rows flagged `b`, in
order. -/
theorem C9_subset_condition (v : SubDataset) :
    v.subset_condition none = v ∧
    (∀ b : Bool, v.controls.length = v.genes.length →
      (v.subset_condition (some b)).controls.all (fun c => c == b) = true ∧
      (v.subset_condition (some b)).genes =
        ((v.genes.zip v.controls).filter (fun pc => pc.2 == b)).map Prod.fst) := by
  refine ⟨rfl, ?_⟩
  intro b hlen
  constructor
  · rw [List.all_eq_true]
    intro c hc
    simp only [SubDataset.subset_condition, mkSub, List.mem_map] at hc
    obtain ⟨i, hi, hci⟩ := hc
    rw [mem_npWhere] at hi
    rw [← hci]
    exact hi.2
  · show (npWhere (fun c => c == b) v.controls).map
        (fun i => v.toRowData.genes.getD i []) = _
    exact map_getD_npWhere (fun c => c == b) [] v.controls v.genes hlen

/-- C9 witness: at the scenario view, `subset_condition(None)` is the
identical view and `subset_condition(False)` keeps only rows flagged
`False`. -/
theorem C9_subset_condition_witness :
    vScenario.subset_condition none = vScenario ∧
    (vScenario.subset_condition (some false)).controls.all
      (fun c => c == false) = true := by
  have h := C9_subset_condition vScenario
  exact ⟨h.1, (h.2 false (by decide)).1⟩

/-- C10: `__getitem__` runs the control-name rejection loop and
returns the accepted candidate's perturbation encoding even when
`sample_cf` is disabled — the whole call is the loop's result mapped
into the tuple, with only `cf_genes` pinned to `None`; any returned
tuple has a null counterfactual response and carries the encoding of
an accepted (non-control by substring test) candidate. -/
theorem C10_getitem_loop_not_gated (v : SubDataset) (hcf : v.sample_cf = false)
    (i : Nat) (rng : List Nat) :
    v.getitem i rng = (rejectLoop v.control_names v.pert_dose rng).map
      (fun p => { genes_i := v.genes.getD i []
                  pert_i := v.perturbations.getD i []
                  cf_genes := none
                  pert_cf := v.perturbations.getD p.1 []
                  covs_i := v.covariates.map (fun cov => cov.getD i 0) }) ∧
    (∀ res, v.getitem i rng = some res → res.cf_genes = none ∧
      ∃ cf_i rng', rejectLoop v.control_names v.pert_dose rng = some (cf_i, rng') ∧
        res.pert_cf = v.perturbations.getD cf_i [] ∧
        isControlName v.control_names (v.pert_dose.getD cf_i "") = false) := by
  have heq : v.getitem i rng = (rejectLoop v.control_names v.pert_dose rng).map
      (fun p => { genes_i := v.genes.getD i []
                  pert_i := v.perturbations.getD i []
                  cf_genes := none
                  pert_cf := v.perturbations.getD p.1 []
                  covs_i := v.covariates.map (fun cov => cov.getD i 0) }) := by
    unfold SubDataset.getitem
    cases hr : rejectLoop v.control_names v.pert_dose rng with
    | none => rfl
    | some p => simp [hcf]
  refine ⟨heq, ?_⟩
  intro res hres
  rw [heq] at hres
  cases hr : rejectLoop v.control_names v.pert_dose rng with
  | none => rw [hr] at hres; simp at hres
  | some p =>
    rw [hr] at hres
    simp only [Option.map_some', Option.some_inj] at hres
    refine ⟨by rw [← hres], p.1, p.2, rfl, by rw [← hres], ?_⟩
    exact rejectLoop_sound v.control_names v.pert_dose rng p.1 p.2 hr

/-- C10 witness: on the scenario view (counterfactual sampling
disabled), a call at row 0 with one RNG draw equals the loop result
mapped into the tuple, with a null counterfactual response. -/
theorem C10_getitem_loop_not_gated_witness :
    vScenario.getitem 0 [1] =
      (rejectLoop vScenario.control_names vScenario.pert_dose [1]).map
      (fun p => { genes_i := vScenario.genes.getD 0 []
                  pert_i := vScenario.perturbations.getD 0 []
                  cf_genes := none
                  pert_cf := vScenario.perturbations.getD p.1 []
                  covs_i := vScenario.covariates.map (fun cov => cov.getD 0 0) }) := by
  exact (C10_getitem_loop_not_gated vScenario (by rfl) 0 [1]).1

/-- C4 counterexample: a sample whose perturbation splits into two
parts (`"A+B"`) while its dose splits into one (`"1.0"`) does NOT make
Dataset construction fail — the surplus agent is silently dropped —
refuting "this failure occurs whenever the two lengths differ, in
either direction". -/
theorem C4_counterexample :
    (splitPlus (rawMismatch.pertNames.getD 0 "")).length = 2 ∧
    (splitPlus (rawMismatch.doseStrs.getD 0 "")).length = 1 ∧
    (mkDataset rawMismatch pfFix false 20).isSome = true := by
  exact ⟨by decide, by decide, by decide⟩

/-- C4 (amended): per-sample encoding fails (index-out-of-range) iff
the dose string splits into MORE parts than the perturbation string;
when the perturbation splits into more parts, the surplus agents are
silently ignored and no error is raised. -/
theorem C4_mismatch_fails_iff_dose_longer (vocab : List String)
    (pf : String → ℚ) (pert dose : String)
    (hall : ∀ p ∈ splitPlus pert, (pertsDictLookup vocab p).isSome = true) :
    encodeSample vocab pf pert dose = none ↔
      (splitPlus pert).length < (splitPlus dose).length := by
  obtain ⟨combos, hcombos⟩ := mapM_option_isSome _ _ hall
  have hclen : combos.length = (splitPlus pert).length :=
    (mapM_option_forall₂ _ _ _ hcombos).length_eq.symm
  unfold encodeSample
  rw [hcombos]
  simp only [Option.bind_eq_bind, Option.some_bind]
  constructor
  · intro h
    cases hs : scaleLoop pf (splitPlus dose) combos with
    | none =>
      have := (scaleLoop_eq_none_iff pf _ _).mp hs
      rw [hclen] at this
      exact this
    | some s => rw [hs] at h; simp at h
  · intro h
    have hs : scaleLoop pf (splitPlus dose) combos = none :=
      (scaleLoop_eq_none_iff pf _ _).mpr (by rw [hclen]; exact h)
    rw [hs]
    rfl

/-- C4 amended witness: with vocabulary `{A, B}`, `"A+B"` against
three dose parts fails, while `"A+B"` against one dose part
succeeds. -/
theorem C4_mismatch_fails_iff_dose_longer_witness :
    encodeSample ["A", "B"] pfFix "A+B" "1.0+2.0+3.0" = none ∧
    encodeSample ["A", "B"] pfFix "A+B" "1.0" ≠ none := by
  constructor
  · exact (C4_mismatch_fails_iff_dose_longer ["A", "B"] pfFix "A+B" "1.0+2.0+3.0"
      (by decide)).mpr (by decide)
  · intro hc
    have := (C4_mismatch_fails_iff_dose_longer ["A", "B"] pfFix "A+B" "1.0"
      (by decide)).mp hc
    exact absurd this (by decide)

/-- C6 counterexample: a dose key (`"dose"`) that is neither
registered in the schema metadata nor present as a physical column
fails the assertion instead of synthesizing a fallback column; the
split field behaves the same — refuting "the dose field does not fail
... but instead synthesizes". -/
theorem C6_counterexample :
    resolveDose (some "dose") [] ["perturbation", "control"] 4 =
      Except.error "Dose dose is missing in the provided adata" ∧
    resolveSplit (some "split") [] ["perturbation", "control"] [] =
      Except.error "Split split is missing in the provided adata" := by
  exact ⟨rfl, rfl⟩

/-- C6 (amended): fallback synthesis for the dose and split fields
happens only when the caller passes `None` as the key (dose: constant
`1.0` column; split: the external splitter's assignment); a non-`None`
key missing from both the schema metadata and the physical columns
fails with an assertion, for dose and split alike. -/
theorem C6_fallback_only_for_none_key (fields : List (String × String))
    (cols : List String) (n : Nat) (auto : List String) (k : String)
    (hk1 : fields.lookup k = none) (hk2 : cols.contains k = false) :
    resolveDose none fields cols n =
      .ok (.synthesized (List.replicate n (1 : ℚ))) ∧
    resolveSplit none fields cols auto = .ok (.synthesized auto) ∧
    resolveDose (some k) fields cols n =
      .error ("Dose " ++ k ++ " is missing in the provided adata") ∧
    resolveSplit (some k) fields cols auto =
      .error ("Split " ++ k ++ " is missing in the provided adata") := by
  refine ⟨rfl, rfl, ?_, ?_⟩
  · simp only [resolveDose, hk1, hk2]
    rfl
  · simp only [resolveSplit, hk1, hk2]
    rfl

/-- C6 amended witness: with empty metadata and one column `"x"`, a
`None` dose key synthesizes `[1, 1]` while the named key `"dose"`
fails. -/
theorem C6_fallback_only_for_none_key_witness :
    resolveDose none [] ["x"] 2 =
      .ok (.synthesized (List.replicate 2 (1 : ℚ))) ∧
    resolveDose (some "dose") [] ["x"] 2 =
      .error ("Dose " ++ "dose" ++ " is missing in the provided adata") := by
  have h := C6_fallback_only_for_none_key [] ["x"] 2 ["train"] "dose" rfl rfl
  exact ⟨h.1, h.2.2.1⟩

theorem lookup_mem_assoc [BEq α] [LawfulBEq α] :
    ∀ (l : List (α × β)) (a : α) (b2 : β), l.lookup a = some b2 → (a, b2) ∈ l := by
  intro l
  induction l with
  | nil => intro a b2 h; simp [List.lookup] at h
  | cons kv rest ih =>
    intro a b2 h
    cases kv with
    | mk x y =>
      simp only [List.lookup] at h
      by_cases hax : a == x
      · simp only [hax] at h
        cases h
        have : a = x := eq_of_beq hax
        subst this
        exact List.mem_cons_self _ _
      · simp only [Bool.not_eq_true] at hax
        simp only [hax] at h
        exact List.mem_cons_of_mem _ (ih a b2 h)

/-- C5 counterexample: on the counterfactual fixture view, the group
`"X_A_1.0"` holds the two row positions 1 and 2 (size 2 ≤
`cf_samples = 20`), yet the RNG stream `[1,0,0]` gathers row 1's gene
row twice and row 2's (`[30]`) not at all — refuting "when the group
has at most cf_samples rows, every row of the group is gathered
exactly once" (the draw is with replacement). -/
theorem C5_counterexample :
    mkDataset rawCf pfFix true 20 = some dCf ∧
    vCf.cov_pert_dose_idx.lookup "X_A_1.0" = some [1, 2] ∧
    vCf.cf_samples = 20 ∧
    (vCf.getitem 1 [1, 0, 0]).map GetItemResult.cf_genes =
      some (some [[20], [20]]) ∧
    vCf.genes.getD 2 [] = [(30 : ℚ)] ∧
    [(30 : ℚ)] ∉ [[(20 : ℚ)], [(20 : ℚ)]] := by
  exact ⟨by rfl, by rfl, by rfl, by rfl, by rfl, by decide⟩

/-- C5 (amended): with counterfactual sampling enabled, when the
candidate group key exists in the grouping index the counterfactual
response set consists of `min(group size, cf_samples)` gene rows drawn
from the group WITH replacement (each drawn position lies in the
group, but positions may repeat and some group rows may be missed);
when the key is absent, the counterfactual response is null. -/
theorem C5_cf_sampling_with_replacement (v : SubDataset)
    (hcf : v.sample_cf = true)
    (hg : ∀ p ∈ v.cov_pert_dose_idx, p.2 ≠ ([] : List Nat))
    (i : Nat) (rng : List Nat) (res : GetItemResult)
    (hres : v.getitem i rng = some res) :
    ∃ cf_i rng', rejectLoop v.control_names v.pert_dose rng = some (cf_i, rng') ∧
      ((v.cov_pert_dose_idx.lookup
          (v.cov_names.getD i "" ++ "_" ++ v.pert_dose.getD cf_i "") = none ∧
        res.cf_genes = none) ∨
       (∃ (grp picks : List Nat),
          v.cov_pert_dose_idx.lookup
            (v.cov_names.getD i "" ++ "_" ++ v.pert_dose.getD cf_i "") = some grp ∧
          picks.length = min grp.length v.cf_samples ∧
          (∀ p ∈ picks, p ∈ grp) ∧
          res.cf_genes = some (picks.map (fun j => v.genes.getD j [])))) := by
  unfold SubDataset.getitem at hres
  cases hr : rejectLoop v.control_names v.pert_dose rng with
  | none => rw [hr] at hres; simp at hres
  | some p =>
    rw [hr] at hres
    simp only [hcf, if_true, Option.some_inj] at hres
    refine ⟨p.1, p.2, rfl, ?_⟩
    cases hlook : v.cov_pert_dose_idx.lookup
        (v.cov_names.getD i "" ++ "_" ++ v.pert_dose.getD p.1 "") with
    | none =>
      left
      refine ⟨rfl, ?_⟩
      rw [← hres]
      simp only [hlook]
    | some grp =>
      right
      have hgrp : grp ≠ [] :=
        hg _ (lookup_mem_assoc _ _ _ hlook)
      refine ⟨grp, npChoice grp (min grp.length v.cf_samples) p.2, rfl,
        npChoice_length _ _ _, npChoice_mem grp hgrp _ _, ?_⟩
      rw [← hres]
      simp only [hlook]

/-- C5 amended witness: the fixture call above is exactly an instance
of the amended statement: the loop accepts candidate 1, the group key
`"X_A_1.0"` resolves, and both gathered positions lie in the group. -/
theorem C5_cf_sampling_with_replacement_witness :
    ∃ cf_i rng',
      rejectLoop vCf.control_names vCf.pert_dose [1, 0, 0] = some (cf_i, rng') ∧
      ((vCf.cov_pert_dose_idx.lookup
          (vCf.cov_names.getD 1 "" ++ "_" ++ vCf.pert_dose.getD cf_i "") = none ∧
        ((vCf.getitem 1 [1, 0, 0]).getD default).cf_genes = none) ∨
       (∃ (grp picks : List Nat),
          vCf.cov_pert_dose_idx.lookup
            (vCf.cov_names.getD 1 "" ++ "_" ++ vCf.pert_dose.getD cf_i "")
            = some grp ∧
          picks.length = min grp.length vCf.cf_samples ∧
          (∀ p ∈ picks, p ∈ grp) ∧
          ((vCf.getitem 1 [1, 0, 0]).getD default).cf_genes =
            some (picks.map (fun j => vCf.genes.getD j [])))) := by
  exact C5_cf_sampling_with_replacement vCf (by rfl) (by decide) 1 [1, 0, 0]
    ((vCf.getitem 1 [1, 0, 0]).getD default) (by rfl)
